import Mathlib

/-!
Shallow embedding of the DDPico firmware receive-to-render pipeline
(`src/firmware/lib/DDPController`): the COBS frame decoder, the
cross-core circular byte queue, the DDP protocol parser, the brightness
limiter, and the controller's render tick, together with theorems
settling the specification's claims about them.

Machine integers are modelled as `Nat` with explicit `% 2 ^ w`
reductions exactly where the C code can truncate (the `uint16_t`
lit-pixel counter, the `uint16_t` start-pixel conversion); everywhere
else the C arithmetic cannot overflow on the values the hypotheses
allow, so plain `Nat` arithmetic is faithful.
-/

set_option maxRecDepth 4000

/-! ## Arithmetic helpers for big-endian byte fields -/

/-- Bits 7-6 of a byte: masking with `0xC0` and comparing with `0x40` is
the same as asking that the value shifted down by 6 equals 1. -/
theorem and192_eq_64_iff : ∀ b : Nat, b < 256 → (b &&& 192 = 64 ↔ b / 64 = 1) := by
  decide

/-- Big-endian assembly of two bytes via shift-and-or equals the
arithmetic value `hi * 256 + lo`. -/
theorem shift8_or_eq (a b : Nat) (hb : b < 256) : (a <<< 8) ||| b = a * 256 + b := by
  have h := Nat.mul_add_lt_is_or (i := 8) (b := b) hb a
  rw [Nat.shiftLeft_eq, Nat.mul_comm a (2 ^ 8), ← h]

/-! ## DDPProtocol.h -/

/-- Parsed DDP packet, mirroring `struct DDPPacket` in `DDPProtocol.h`:
flags, 4-bit sequence, data type, destination id, 32-bit big-endian
byte offset, 16-bit big-endian payload length, and the payload bytes. -/
structure DDPPacket where
  flags : Nat
  sequence : Nat
  dataType : Nat
  destId : Nat
  dataOffset : Nat
  dataLength : Nat
  data : List Nat
deriving Repr, DecidableEq

/-- `DDPPacket::isValid`: version bits 7-6 must be `01`, data type must
be `0x00` or `0x01`, and the declared length must be in `1..1440`. -/
def DDPPacket.isValid (p : DDPPacket) : Bool :=
  (p.flags &&& 0xC0 == 0x40) && (p.dataType == 0x00 || p.dataType == 0x01) &&
    decide (0 < p.dataLength) && decide (p.dataLength ≤ 1440)

/-- `DDPPacket::shouldPush`: bit 0 of the flags byte. -/
def DDPPacket.shouldPush (p : DDPPacket) : Bool :=
  p.flags &&& 0x01 != 0

/-- `DDPProtocol::parsePacket`: reject short buffers, decode the fixed
10-byte header, validate it, check the declared payload is present, and
expose the payload view. -/
def DDPProtocol.parsePacket (buffer : List Nat) : Option DDPPacket :=
  if buffer.length < 10 then none
  else
    let p : DDPPacket :=
      { flags := buffer.getD 0 0
        sequence := buffer.getD 1 0 &&& 0x0F
        dataType := buffer.getD 2 0
        destId := buffer.getD 3 0
        dataOffset := (buffer.getD 4 0 <<< 24) ||| (buffer.getD 5 0 <<< 16) |||
          (buffer.getD 6 0 <<< 8) ||| buffer.getD 7 0
        dataLength := (buffer.getD 8 0 <<< 8) ||| buffer.getD 9 0
        data := [] }
    if !p.isValid then none
    else if buffer.length < 10 + p.dataLength then none
    else some { p with data := buffer.drop 10 }

/-- `DDPProtocol::getPixelCount`: RGB means three bytes per pixel. -/
def DDPProtocol.getPixelCount (p : DDPPacket) : Nat :=
  p.dataLength / 3

/-- Every entry read with a default out of a byte list is a byte. -/
theorem getD_lt_256 (buffer : List Nat) (hb : ∀ b ∈ buffer, b < 256) (i : Nat) :
    buffer.getD i 0 < 256 := by
  rcases Nat.lt_or_ge i buffer.length with h | h
  · have he : buffer.getD i 0 = buffer.get ⟨i, h⟩ := by
      simp [List.getD_eq_getElem?_getD, List.getElem?_eq_getElem h]
    rw [he]
    exact hb _ (List.get_mem buffer i h)
  · have : buffer.getD i 0 = 0 := by
      simp [List.getD_eq_getElem?_getD, List.getElem?_eq_none h]
    omega

/-- Claim C4: `parsePacket` fails exactly when the length is under 10,
the version bits (bits 7-6 of byte 0) differ from `01`, the data type
byte is neither `0x00` nor `0x01`, the declared 16-bit payload length
is 0 or exceeds 1440, or the buffer is shorter than 10 plus the
declared payload length; on success the pixel count is the declared
payload length divided by 3, any trailing partial triplet truncated. -/
theorem DDPProtocol.parsePacket_fail_iff (buffer : List Nat)
    (hb : ∀ b ∈ buffer, b < 256) :
    (DDPProtocol.parsePacket buffer = none ↔
      buffer.length < 10 ∨ buffer.getD 0 0 / 64 ≠ 1 ∨
        (buffer.getD 2 0 ≠ 0x00 ∧ buffer.getD 2 0 ≠ 0x01) ∨
        buffer.getD 8 0 * 256 + buffer.getD 9 0 = 0 ∨
        1440 < buffer.getD 8 0 * 256 + buffer.getD 9 0 ∨
        buffer.length < 10 + (buffer.getD 8 0 * 256 + buffer.getD 9 0)) ∧
    (∀ p, DDPProtocol.parsePacket buffer = some p →
      DDPProtocol.getPixelCount p = p.dataLength / 3 ∧
      p.dataLength = buffer.getD 8 0 * 256 + buffer.getD 9 0) := by
  have hdl : (buffer.getD 8 0 <<< 8) ||| buffer.getD 9 0 =
      buffer.getD 8 0 * 256 + buffer.getD 9 0 :=
    shift8_or_eq _ _ (getD_lt_256 buffer hb 9)
  have hver : (buffer.getD 0 0 &&& 0xC0 = 0x40) ↔ buffer.getD 0 0 / 64 = 1 :=
    and192_eq_64_iff _ (getD_lt_256 buffer hb 0)
  constructor
  · rw [DDPProtocol.parsePacket]
    split
    · rename_i h1
      simp only [eq_self_iff_true, true_iff]
      exact Or.inl h1
    · rename_i h1
      simp only [DDPPacket.isValid, hdl, Bool.not_eq_true', Bool.and_eq_false_iff,
        beq_eq_false_iff_ne, ne_eq, decide_eq_false_iff_not, not_lt, not_le,
        Bool.or_eq_false_iff]
      split
      · rename_i hv
        simp only [eq_self_iff_true, true_iff]
        rcases hv with ((hv | hv) | hv) | hv
        · exact Or.inr (Or.inl (fun hc => hv (hver.mpr hc)))
        · exact Or.inr (Or.inr (Or.inl hv))
        · omega
        · omega
      · rename_i hv
        push_neg at hv
        obtain ⟨⟨⟨hA, hCD⟩, hL0⟩, hL1440⟩ := hv
        split
        · rename_i h2
          simp only [eq_self_iff_true, true_iff]
          omega
        · rename_i h2
          simp only [reduceCtorEq, false_iff]
          push_neg
          exact ⟨by omega, hver.mp hA, hCD, by omega, by omega, by omega⟩
  · intro p hp
    simp only [DDPProtocol.parsePacket] at hp
    split at hp
    · exact absurd hp (by simp)
    · split at hp
      · exact absurd hp (by simp)
      · split at hp
        · exact absurd hp (by simp)
        · rw [Option.some.injEq] at hp
          subst hp
          exact ⟨rfl, hdl⟩

/-- Sample frame from the spec: version bits `01`, data type `0x01`,
declared payload length 9, total length 19. -/
def sampleDDPFrame : List Nat :=
  [0x41, 0, 1, 1, 0, 0, 0, 0, 0, 9, 7, 7, 7, 7, 7, 7, 7, 7, 7]

/-- Witness for claim C4 at a concrete 19-byte frame. -/
theorem DDPProtocol.parsePacket_fail_iff_witness :
    (∀ b ∈ sampleDDPFrame, b < 256) ∧
    ¬ DDPProtocol.parsePacket sampleDDPFrame = none := by
  refine ⟨by decide, ?_⟩
  rw [(DDPProtocol.parsePacket_fail_iff sampleDDPFrame (by decide)).1]
  decide

/-! ## COBSDecoder.h -/

/-- Loop body of `COBSDecoder::decode`, the byte-unstuffing routine:
read a code byte, copy `code - 1` following bytes verbatim (stopping at
end of input), then insert a literal zero when `code < 0xFF` and input
remains; a zero code ends the frame; any write past `outputMax` aborts
with an error.  `used` counts output bytes already produced; `fuel`
bounds the iteration count (each iteration consumes at least one input
byte, so any `fuel` at least the input length is enough). -/
def COBSDecoder.decodeLoop (outputMax : Nat) : Nat → Nat → List Nat → Option (List Nat)
  | _, _, [] => some []
  | 0, _, _ :: _ => none
  | fuel + 1, used, code :: rest =>
    if code = 0 then some []
    else
      let k := min (code - 1) rest.length
      if outputMax < used + k then none
      else if code < 255 ∧ k < rest.length then
        if outputMax ≤ used + k then none
        else (COBSDecoder.decodeLoop outputMax fuel (used + k + 1) (rest.drop k)).map
          (fun t => rest.take k ++ 0 :: t)
      else (COBSDecoder.decodeLoop outputMax fuel (used + k) (rest.drop k)).map
        (fun t => rest.take k ++ t)

/-- `COBSDecoder::decode`: `none` models the error return 0 caused by an
output overflow; `some out` models a successful decode writing `out`. -/
def COBSDecoder.decode (input : List Nat) (outputMax : Nat) : Option (List Nat) :=
  COBSDecoder.decodeLoop outputMax input.length 0 input

/-- State of a `COBSDecoder`: the configured maximum frame size, the
accumulation buffer (its length is `framePos`), and the exposed decode
buffer (its length is `decodedLength`). -/
structure COBSDecoderState where
  maxFrameSize : Nat
  frameBuffer : List Nat
  decodeBuffer : List Nat
deriving Repr, DecidableEq

/-- A freshly constructed `COBSDecoder(maxFrameSize)`. -/
def COBSDecoder.init (maxFrameSize : Nat) : COBSDecoderState :=
  ⟨maxFrameSize, [], []⟩

/-- `COBSDecoder::getFrameLength`. -/
def COBSDecoder.getFrameLength (s : COBSDecoderState) : Nat :=
  s.decodeBuffer.length

/-- `COBSDecoder::processByte`: a zero byte is the frame delimiter — if
bytes were accumulated, unstuff them and report a ready frame exactly
when the decode produced at least one byte; a non-zero byte accumulates
while space remains, and a full accumulation buffer is discarded. -/
def COBSDecoder.processByte (s : COBSDecoderState) (byte : Nat) :
    COBSDecoderState × Bool :=
  if byte = 0 then
    if 0 < s.frameBuffer.length then
      match COBSDecoder.decode s.frameBuffer s.maxFrameSize with
      | some decoded =>
        if 0 < decoded.length then
          ({ s with frameBuffer := [], decodeBuffer := decoded }, true)
        else ({ s with frameBuffer := [] }, false)
      | none => ({ s with frameBuffer := [] }, false)
    else (s, false)
  else
    if s.frameBuffer.length < s.maxFrameSize then
      ({ s with frameBuffer := s.frameBuffer ++ [byte] }, false)
    else ({ s with frameBuffer := [] }, false)

/-- Feed a byte sequence one byte at a time through `processByte`,
returning the final state and how many times a ready frame was
reported. -/
def COBSDecoder.feed (s : COBSDecoderState) : List Nat → COBSDecoderState × Nat
  | [] => (s, 0)
  | b :: bs =>
    let r := COBSDecoder.processByte s b
    let rest := COBSDecoder.feed r.1 bs
    (rest.1, (if r.2 then 1 else 0) + rest.2)

/-- Modelled from the spec: the host-side byte-stuffing encoder is not
part of the firmware sources; this follows the wire-format words — the
encoded form uses length-prefixed runs where a run length byte of value
`n` denotes `n - 1` literal data bytes followed by an implicit zero,
except when the run reaches the maximum encodable length (`0xFF`, 254
literals) or ends the frame.  `fuel` bounds the iteration count; any
`fuel` above the data length is enough, since every run consumes at
least one data byte or ends the encoding. -/
def cobsEncodeLoop : Nat → List Nat → List Nat
  | 0, _ => []
  | fuel + 1, data =>
    let pre := data.takeWhile (fun b => b != 0)
    if 254 ≤ pre.length then
      255 :: (data.take 254 ++ cobsEncodeLoop fuel (data.drop 254))
    else if pre.length = data.length then
      (pre.length + 1) :: pre
    else
      (pre.length + 1) :: (pre ++ cobsEncodeLoop fuel (data.drop (pre.length + 1)))

/-- Modelled from the spec: byte-stuffing encoding of a whole frame. -/
def cobsEncode (data : List Nat) : List Nat :=
  cobsEncodeLoop (data.length + 1) data

/-- Output-length invariant of the unstuffing loop: every successful
decode fits in `outputMax` bytes. -/
theorem COBSDecoder.decodeLoop_length_le (outputMax : Nat) :
    ∀ fuel used input out, used ≤ outputMax →
      COBSDecoder.decodeLoop outputMax fuel used input = some out →
      used + out.length ≤ outputMax := by
  intro fuel
  induction fuel with
  | zero =>
    intro used input out hused h
    cases input with
    | nil =>
      simp only [COBSDecoder.decodeLoop, Option.some.injEq] at h
      subst h
      simpa using hused
    | cons code rest => exact absurd h (by simp [COBSDecoder.decodeLoop])
  | succ fuel ih =>
    intro used input out hused h
    cases input with
    | nil =>
      simp only [COBSDecoder.decodeLoop, Option.some.injEq] at h
      subst h
      simpa using hused
    | cons code rest =>
      rw [COBSDecoder.decodeLoop] at h
      split at h
      · rw [Option.some.injEq] at h
        subst h
        simpa using hused
      · simp only [] at h
        split at h
        · exact absurd h (by simp)
        · rename_i hov
          split at h
          · split at h
            · exact absurd h (by simp)
            · rename_i hz
              rw [Option.map_eq_some'] at h
              obtain ⟨t, ht, rfl⟩ := h
              have := ih (used + min (code - 1) rest.length + 1) (rest.drop _) t
                (by omega) ht
              simp only [List.length_append, List.length_take, List.length_cons]
              omega
          · rw [Option.map_eq_some'] at h
            obtain ⟨t, ht, rfl⟩ := h
            have := ih (used + min (code - 1) rest.length) (rest.drop _) t
              (by omega) ht
            simp only [List.length_append, List.length_take]
            omega

/-- Claim C10: whenever `processByte` reports a ready frame, the exposed
decoded frame length is at least 1 and at most the configured maximum
frame size, so every frame the receive loop offers to the queue has a
non-empty payload. -/
theorem COBSDecoder.processByte_ready_length (s : COBSDecoderState) (byte : Nat)
    (h : (COBSDecoder.processByte s byte).2 = true) :
    1 ≤ COBSDecoder.getFrameLength (COBSDecoder.processByte s byte).1 ∧
      COBSDecoder.getFrameLength (COBSDecoder.processByte s byte).1 ≤ s.maxFrameSize := by
  rw [COBSDecoder.processByte] at h ⊢
  split
  · split
    · rename_i hpos
      split
      · rename_i decoded hdec
        split
        · rename_i hlen
          refine ⟨by simpa [COBSDecoder.getFrameLength] using hlen, ?_⟩
          simpa [COBSDecoder.getFrameLength] using
            COBSDecoder.decodeLoop_length_le s.maxFrameSize s.frameBuffer.length 0
              s.frameBuffer decoded (Nat.zero_le _) hdec
        · simp_all
      · simp_all
    · simp_all
  · split
    · simp_all
    · simp_all

/-- The prefix of bytes kept verbatim by a run is never longer than the
data. -/
theorem takeWhile_length_le (data : List Nat) :
    (data.takeWhile (fun b => b != 0)).length ≤ data.length :=
  (List.takeWhile_prefix _).length_le

/-- When the zero-free prefix is proper, the data splits as that prefix,
one zero byte, and the rest. -/
theorem takeWhile_zero_decomp (data : List Nat)
    (h : (data.takeWhile (fun b => b != 0)).length < data.length) :
    data = data.takeWhile (fun b => b != 0) ++
      0 :: data.drop ((data.takeWhile (fun b => b != 0)).length + 1) := by
  have hsplit := List.takeWhile_append_dropWhile (fun b => b != 0) data
  have hlen : data.length =
      (data.takeWhile (fun b => b != 0)).length +
        (data.dropWhile (fun b => b != 0)).length := by
    conv_lhs => rw [← hsplit]
    exact List.length_append _ _
  have hne : data.dropWhile (fun b => b != 0) ≠ [] := by
    intro hnil
    rw [hnil] at hlen
    simp at hlen
    omega
  have hhead := List.head_dropWhile_not (fun b => b != 0) data hne
  have hzero : (data.dropWhile (fun b => b != 0)).head hne = 0 := by
    simpa using hhead
  have hcons : data.dropWhile (fun b => b != 0) =
      0 :: (data.dropWhile (fun b => b != 0)).tail := by
    conv_lhs => rw [← List.head_cons_tail _ hne]
    rw [hzero]
  have hdata : data = data.takeWhile (fun b => b != 0) ++
      0 :: (data.dropWhile (fun b => b != 0)).tail := by
    conv_lhs => rw [← hsplit]
    rw [← hcons]
  have h2 : data = (data.takeWhile (fun b => b != 0) ++ [0]) ++
      (data.dropWhile (fun b => b != 0)).tail := by
    rw [List.append_assoc]
    simpa using hdata
  have htail : data.drop ((data.takeWhile (fun b => b != 0)).length + 1) =
      (data.dropWhile (fun b => b != 0)).tail := by
    calc data.drop ((data.takeWhile (fun b => b != 0)).length + 1)
        = ((data.takeWhile (fun b => b != 0) ++ [0]) ++
            (data.dropWhile (fun b => b != 0)).tail).drop
            ((data.takeWhile (fun b => b != 0)).length + 1) := by rw [← h2]
      _ = (data.dropWhile (fun b => b != 0)).tail := List.drop_left' (by simp)
  rw [htail]
  exact hdata

/-- Encoding is insensitive to the fuel bound, as long as the bound
exceeds the data length. -/
theorem cobsEncodeLoop_fuel_irrel :
    ∀ f1 f2 data, data.length < f1 → data.length < f2 →
      cobsEncodeLoop f1 data = cobsEncodeLoop f2 data := by
  intro f1
  induction f1 with
  | zero => intro f2 data h1; omega
  | succ f1 ih =>
    intro f2 data h1 h2
    obtain ⟨g2, rfl⟩ : ∃ g2, f2 = g2 + 1 := ⟨f2 - 1, by omega⟩
    rw [cobsEncodeLoop, cobsEncodeLoop]
    have hpre := takeWhile_length_le data
    split
    · rename_i hbig
      have : (data.drop 254).length < f1 := by simp; omega
      have : (data.drop 254).length < g2 := by simp; omega
      rw [ih g2 (data.drop 254) (by assumption) (by assumption)]
    · split
      · rfl
      · rename_i hno254 hproper
        have h3 : (data.takeWhile (fun b => b != 0)).length < data.length := by omega
        have : (data.drop ((data.takeWhile (fun b => b != 0)).length + 1)).length < f1 := by
          simp
          omega
        have : (data.drop ((data.takeWhile (fun b => b != 0)).length + 1)).length < g2 := by
          simp
          omega
        rw [ih g2 _ (by assumption) (by assumption)]

/-- One-step unfolding of the encoder in terms of itself. -/
theorem cobsEncode_eq (data : List Nat) :
    cobsEncode data =
      if 254 ≤ (data.takeWhile (fun b => b != 0)).length then
        255 :: (data.take 254 ++ cobsEncode (data.drop 254))
      else if (data.takeWhile (fun b => b != 0)).length = data.length then
        ((data.takeWhile (fun b => b != 0)).length + 1) :: data.takeWhile (fun b => b != 0)
      else
        ((data.takeWhile (fun b => b != 0)).length + 1) ::
          (data.takeWhile (fun b => b != 0) ++
            cobsEncode (data.drop ((data.takeWhile (fun b => b != 0)).length + 1))) := by
  have hpre := takeWhile_length_le data
  rw [cobsEncode, cobsEncodeLoop]
  split
  · rename_i hbig
    rw [cobsEncode, cobsEncodeLoop_fuel_irrel data.length ((data.drop 254).length + 1)
      (data.drop 254) (by simp; omega) (by simp)]
  · split
    · rfl
    · rename_i hno254 hproper
      have h3 : (data.takeWhile (fun b => b != 0)).length < data.length := by omega
      rw [cobsEncode, cobsEncodeLoop_fuel_irrel data.length
        ((data.drop ((data.takeWhile (fun b => b != 0)).length + 1)).length + 1)
        _ (by simp; omega) (by simp)]

/-- The encoder never produces an empty sequence. -/
theorem cobsEncode_ne_nil (data : List Nat) : cobsEncode data ≠ [] := by
  rw [cobsEncode_eq]
  split
  · simp
  · split <;> simp

/-- Every encoded byte is non-zero: code bytes are at least 1 and
literal bytes come from zero-free runs.  This is what lets the zero
byte act as an unambiguous frame delimiter. -/
theorem cobsEncode_pos :
    ∀ n data, data.length ≤ n → ∀ b ∈ cobsEncode data, 0 < b := by
  intro n
  induction n with
  | zero =>
    intro data hlen b hb
    have : data = [] := List.length_eq_zero.mp (by omega)
    subst this
    rw [cobsEncode_eq] at hb
    simp at hb
    omega
  | succ n ih =>
    intro data hlen b hb
    have hpre := takeWhile_length_le data
    have hmem : ∀ c ∈ data.takeWhile (fun x => x != 0), 0 < c := by
      intro c hc
      have := List.mem_takeWhile_imp hc
      simp at this
      omega
    rw [cobsEncode_eq] at hb
    split at hb
    · rename_i hbig
      rcases List.mem_cons.mp hb with rfl | hb2
      · omega
      rcases List.mem_append.mp hb2 with hb3 | hb3
      · have hpretake : data.take 254 = (data.takeWhile (fun x => x != 0)).take 254 := by
          have hp : data.takeWhile (fun x => x != 0) =
              data.take (data.takeWhile (fun x => x != 0)).length :=
            List.prefix_iff_eq_take.mp (List.takeWhile_prefix _)
          rw [hp, List.take_take]
          congr 1
          omega
        rw [hpretake] at hb3
        exact hmem b (List.mem_of_mem_take hb3)
      · exact ih (data.drop 254) (by simp; omega) b hb3
    · split at hb
      · rcases List.mem_cons.mp hb with rfl | hb2
        · omega
        · exact hmem b hb2
      · rename_i hno254 hproper
        rcases List.mem_cons.mp hb with rfl | hb2
        · omega
        rcases List.mem_append.mp hb2 with hb3 | hb3
        · exact hmem b hb3
        · exact ih (data.drop ((data.takeWhile (fun x => x != 0)).length + 1))
            (by simp; omega) b hb3

/-- The encoded form is strictly longer than the data: at least one code
byte is always added. -/
theorem cobsEncode_length :
    ∀ n data, data.length ≤ n → data.length + 1 ≤ (cobsEncode data).length := by
  intro n
  induction n with
  | zero =>
    intro data hlen
    have : data = [] := List.length_eq_zero.mp (by omega)
    subst this
    rw [cobsEncode_eq]
    simp
  | succ n ih =>
    intro data hlen
    have hpre := takeWhile_length_le data
    rw [cobsEncode_eq]
    split
    · rename_i hbig
      have h1 := ih (data.drop 254) (by simp; omega)
      simp only [List.length_cons, List.length_append, List.length_take,
        List.length_drop] at h1 ⊢
      omega
    · split
      · rename_i hall
        simp only [List.length_cons]
        omega
      · rename_i hno254 hproper
        have h3 : (data.takeWhile (fun b => b != 0)).length < data.length := by omega
        have h1 := ih (data.drop ((data.takeWhile (fun b => b != 0)).length + 1))
          (by simp; omega)
        simp only [List.length_cons, List.length_append, List.length_drop] at h1 ⊢
        omega

/-- Core round-trip: the unstuffing loop inverts the encoder whenever
the decoded output fits the output budget.  `used` is the output budget
already consumed, `fuel` any iteration bound at least the encoded
length. -/
theorem COBSDecoder.decodeLoop_cobsEncode (outputMax : Nat) :
    ∀ n data used fuel, data.length ≤ n → (cobsEncode data).length ≤ fuel →
      used + data.length ≤ outputMax →
      COBSDecoder.decodeLoop outputMax fuel used (cobsEncode data) = some data := by
  intro n
  induction n with
  | zero =>
    intro data used fuel hlen hfuel hout
    have hdata : data = [] := List.length_eq_zero.mp (by omega)
    subst hdata
    have henc : cobsEncode [] = [1] := by rw [cobsEncode_eq]; simp
    rw [henc] at hfuel ⊢
    obtain ⟨f, rfl⟩ : ∃ f, fuel = f + 1 := ⟨fuel - 1, by simp at hfuel; omega⟩
    rw [COBSDecoder.decodeLoop]
    rw [if_neg (by decide : ¬(1 : Nat) = 0)]
    simp only []
    rw [if_neg (by simp; omega)]
    rw [if_neg (by simp)]
    cases f <;> simp [COBSDecoder.decodeLoop]
  | succ n ih =>
    intro data used fuel hlen hfuel hout
    have hpre := takeWhile_length_le data
    by_cases hbig : 254 ≤ (data.takeWhile (fun b => b != 0)).length
    · have henc : cobsEncode data = 255 :: (data.take 254 ++ cobsEncode (data.drop 254)) := by
        rw [cobsEncode_eq, if_pos hbig]
      have htklen : (data.take 254).length = 254 := by simp; omega
      have hteln := cobsEncode_length (data.drop 254).length (data.drop 254) le_rfl
      rw [henc] at hfuel ⊢
      simp only [List.length_cons, List.length_append, htklen] at hfuel
      obtain ⟨f, rfl⟩ : ∃ f, fuel = f + 1 := ⟨fuel - 1, by omega⟩
      rw [COBSDecoder.decodeLoop]
      rw [if_neg (by decide : ¬(255 : Nat) = 0)]
      simp only []
      have hkeq : min (255 - 1) (data.take 254 ++ cobsEncode (data.drop 254)).length = 254 := by
        simp only [List.length_append, htklen]
        omega
      rw [hkeq]
      rw [if_neg (by omega)]
      rw [if_neg (by simp)]
      rw [List.take_left' htklen, List.drop_left' htklen]
      rw [ih (data.drop 254) (used + 254) f (by simp; omega)
        (by simp at hteln ⊢; omega) (by simp; omega)]
      simp [List.take_append_drop]
    · by_cases hall : (data.takeWhile (fun b => b != 0)).length = data.length
      · have hpd : data.takeWhile (fun b => b != 0) = data :=
          (List.takeWhile_prefix _).eq_of_length hall
        have henc : cobsEncode data = (data.length + 1) :: data := by
          rw [cobsEncode_eq, if_neg hbig, if_pos hall, hpd]
        rw [henc] at hfuel ⊢
        simp only [List.length_cons] at hfuel
        obtain ⟨f, rfl⟩ : ∃ f, fuel = f + 1 := ⟨fuel - 1, by omega⟩
        rw [COBSDecoder.decodeLoop]
        rw [if_neg (by omega : ¬data.length + 1 = 0)]
        simp only []
        have hkeq : min (data.length + 1 - 1) data.length = data.length := by omega
        rw [hkeq]
        rw [if_neg (by omega)]
        rw [if_neg (by simp)]
        rw [List.take_length, List.drop_length]
        cases f <;> simp [COBSDecoder.decodeLoop]
      · have h3 : (data.takeWhile (fun b => b != 0)).length < data.length := by omega
        have henc : cobsEncode data = ((data.takeWhile (fun b => b != 0)).length + 1) ::
            (data.takeWhile (fun b => b != 0) ++
              cobsEncode (data.drop ((data.takeWhile (fun b => b != 0)).length + 1))) := by
          rw [cobsEncode_eq, if_neg hbig, if_neg hall]
        have hteln := cobsEncode_length
          (data.drop ((data.takeWhile (fun b => b != 0)).length + 1)).length _ le_rfl
        simp only [List.length_drop] at hteln
        rw [henc] at hfuel ⊢
        simp only [List.length_cons, List.length_append] at hfuel
        obtain ⟨f, rfl⟩ : ∃ f, fuel = f + 1 := ⟨fuel - 1, by omega⟩
        rw [COBSDecoder.decodeLoop]
        rw [if_neg (by omega : ¬(data.takeWhile (fun b => b != 0)).length + 1 = 0)]
        simp only []
        have hkeq : min ((data.takeWhile (fun b => b != 0)).length + 1 - 1)
            (data.takeWhile (fun b => b != 0) ++
              cobsEncode (data.drop ((data.takeWhile (fun b => b != 0)).length + 1))).length =
            (data.takeWhile (fun b => b != 0)).length := by
          simp only [List.length_append]
          omega
        rw [hkeq]
        rw [if_neg (by omega)]
        rw [if_pos ⟨by omega, by simp only [List.length_append]; omega⟩]
        rw [if_neg (by omega)]
        rw [List.take_left' rfl, List.drop_left' rfl]
        rw [ih (data.drop ((data.takeWhile (fun b => b != 0)).length + 1))
          (used + (data.takeWhile (fun b => b != 0)).length + 1) f
          (by simp; omega) (by omega) (by simp; omega)]
        rw [Option.map_some']
        rw [Option.some.injEq]
        exact (takeWhile_zero_decomp data h3).symm

/-- Feeding a concatenation is feeding the parts in order, adding the
ready counts. -/
theorem COBSDecoder.feed_append (xs ys : List Nat) :
    ∀ s : COBSDecoderState,
      COBSDecoder.feed s (xs ++ ys) =
        ((COBSDecoder.feed (COBSDecoder.feed s xs).1 ys).1,
          (COBSDecoder.feed s xs).2 + (COBSDecoder.feed (COBSDecoder.feed s xs).1 ys).2) := by
  induction xs with
  | nil => intro s; simp [COBSDecoder.feed]
  | cons b bs ih =>
    intro s
    simp only [List.cons_append, COBSDecoder.feed, List.append_eq, ih]
    simp [Nat.add_assoc]

/-- Feeding non-zero bytes that fit in the remaining accumulation space
only appends them, reporting no frame. -/
theorem COBSDecoder.feed_accumulate (bytes : List Nat) :
    ∀ s : COBSDecoderState, (∀ b ∈ bytes, b ≠ 0) →
      s.frameBuffer.length + bytes.length ≤ s.maxFrameSize →
      COBSDecoder.feed s bytes = ({ s with frameBuffer := s.frameBuffer ++ bytes }, 0) := by
  induction bytes with
  | nil => intro s _ _; simp [COBSDecoder.feed]
  | cons b bs ih =>
    intro s hb hlen
    have hproc : COBSDecoder.processByte s b =
        ({ s with frameBuffer := s.frameBuffer ++ [b] }, false) := by
      rw [COBSDecoder.processByte, if_neg (hb b (by simp)),
        if_pos (by simp at hlen; omega)]
    rw [COBSDecoder.feed]
    simp only [hproc]
    rw [ih { s with frameBuffer := s.frameBuffer ++ [b] }
      (fun c hc => hb c (by simp [hc])) (by simp at hlen ⊢; omega)]
    simp

/-- A delimiter byte after a successful non-empty decode reports the
frame and clears the accumulator. -/
theorem COBSDecoder.processByte_delimiter (s : COBSDecoderState) (decoded : List Nat)
    (hne : 0 < s.frameBuffer.length)
    (hdec : COBSDecoder.decode s.frameBuffer s.maxFrameSize = some decoded)
    (hpos : 0 < decoded.length) :
    COBSDecoder.processByte s 0 =
      ({ s with frameBuffer := [], decodeBuffer := decoded }, true) := by
  rw [COBSDecoder.processByte, if_pos rfl, if_pos hne, hdec]
  simp [hpos]

/-- Claim C2, amended: encoding a non-empty byte sequence whose encoded
form fits the 2048-byte frame buffer and feeding the encoded bytes plus
the 0x00 delimiter one at a time into `processByte` yields exactly one
ready frame whose decoded buffer (and hence length) reproduces the
original bytes.  Sequences of the full frame capacity are excluded:
encoding always adds at least one byte, so their encoded form cannot
fit the accumulation buffer. -/
theorem COBSDecoder.feed_cobsEncode_roundtrip (data : List Nat) (hne : data ≠ [])
    (hfit : (cobsEncode data).length ≤ 2048) :
    COBSDecoder.feed (COBSDecoder.init 2048) (cobsEncode data ++ [0]) =
      ({ maxFrameSize := 2048, frameBuffer := [], decodeBuffer := data }, 1) := by
  have hlen := cobsEncode_length data.length data le_rfl
  have hacc := COBSDecoder.feed_accumulate (cobsEncode data) (COBSDecoder.init 2048)
    (fun b hb => Nat.pos_iff_ne_zero.mp (cobsEncode_pos data.length data le_rfl b hb))
    (by simpa [COBSDecoder.init] using hfit)
  have hdec : COBSDecoder.decode (cobsEncode data) 2048 = some data := by
    rw [COBSDecoder.decode]
    exact COBSDecoder.decodeLoop_cobsEncode 2048 data.length data 0
      (cobsEncode data).length le_rfl le_rfl (by omega)
  rw [COBSDecoder.feed_append, hacc]
  have hstate : ({ COBSDecoder.init 2048 with
      frameBuffer := (COBSDecoder.init 2048).frameBuffer ++ cobsEncode data } :
        COBSDecoderState) = ⟨2048, cobsEncode data, []⟩ := by
    simp [COBSDecoder.init]
  rw [hstate]
  have hdelim := COBSDecoder.processByte_delimiter ⟨2048, cobsEncode data, []⟩ data
    (by simpa using List.length_pos.mpr (cobsEncode_ne_nil data)) hdec
    (by simpa using List.length_pos.mpr hne)
  rw [COBSDecoder.feed]
  simp only [hdelim]
  rw [COBSDecoder.feed]
  simp

/-- Witness for the amended claim C2 at a concrete three-byte payload
containing a zero byte. -/
theorem COBSDecoder.feed_cobsEncode_roundtrip_witness :
    (([7, 0, 9] : List Nat) ≠ [] ∧ (cobsEncode [7, 0, 9]).length ≤ 2048) ∧
    COBSDecoder.feed (COBSDecoder.init 2048) (cobsEncode [7, 0, 9] ++ [0]) =
      ({ maxFrameSize := 2048, frameBuffer := [], decodeBuffer := [7, 0, 9] }, 1) :=
  ⟨⟨by decide, by decide⟩,
    COBSDecoder.feed_cobsEncode_roundtrip [7, 0, 9] (by decide) (by decide)⟩

/-- Encoding an all-zero sequence yields one run code per zero plus a
final code, all equal to 1. -/
theorem cobsEncode_replicate_zero :
    ∀ k, cobsEncode (List.replicate k 0) = List.replicate (k + 1) 1 := by
  intro k
  induction k with
  | zero => rw [cobsEncode_eq]; simp
  | succ k ih =>
    rw [cobsEncode_eq]
    have h1 : List.takeWhile (fun b => b != 0) (List.replicate (k + 1) (0 : Nat)) = [] := by
      rw [List.replicate_succ]
      simp
    rw [h1]
    simp only [List.length_nil, List.length_replicate]
    rw [if_neg (by omega), if_neg (by omega)]
    have h2 : (List.replicate (k + 1) (0 : Nat)).drop (0 + 1) = List.replicate k 0 := by
      rw [List.replicate_succ]
      simp
    rw [h2, ih]
    simp [List.replicate_succ]

/-- Counterexample to claim C2 as stated: a sequence of exactly the
frame capacity (2048 zero bytes) encodes to 2049 bytes, which overflow
the 2048-byte accumulation buffer, so feeding its encoding plus the
delimiter yields zero ready frames rather than exactly one. -/
theorem COBSDecoder.feed_capacity_cex :
    (List.replicate 2048 (0 : Nat)).length = 2048 ∧
    (COBSDecoder.feed (COBSDecoder.init 2048)
      (cobsEncode (List.replicate 2048 0) ++ [0])).2 = 0 := by
  refine ⟨List.length_replicate 2048 0, ?_⟩
  rw [cobsEncode_replicate_zero]
  have hsplit : List.replicate (2048 + 1) (1 : Nat) ++ [0] =
      List.replicate 2048 1 ++ [1, 0] := by
    rw [List.replicate_succ', List.append_assoc]
    rfl
  rw [hsplit, COBSDecoder.feed_append]
  rw [COBSDecoder.feed_accumulate (List.replicate 2048 1) (COBSDecoder.init 2048)
    (by intro b hb; have := List.eq_of_mem_replicate hb; omega)
    (by simp only [COBSDecoder.init, List.length_nil, List.length_replicate]; omega)]
  have hstate : ({ COBSDecoder.init 2048 with
      frameBuffer := (COBSDecoder.init 2048).frameBuffer ++ List.replicate 2048 1 } :
        COBSDecoderState) = ⟨2048, List.replicate 2048 1, []⟩ := by
    simp only [COBSDecoder.init, List.nil_append]
  rw [hstate]
  have hp1 : COBSDecoder.processByte ⟨2048, List.replicate 2048 1, []⟩ 1 =
      (⟨2048, [], []⟩, false) := by
    rw [COBSDecoder.processByte, if_neg (by decide),
      if_neg (by simp only [List.length_replicate]; omega)]
  have hp0 : COBSDecoder.processByte ⟨2048, [], []⟩ 0 = (⟨2048, [], []⟩, false) := by
    rw [COBSDecoder.processByte, if_pos rfl, if_neg (by simp)]
  rw [COBSDecoder.feed]
  simp only [hp1]
  rw [COBSDecoder.feed]
  simp only [hp0]
  rw [COBSDecoder.feed]
  simp

/-- Witness for claim C10 at a concrete decoder state holding the
two-byte accumulation `[2, 5]`, which decodes to the single byte 5. -/
theorem COBSDecoder.processByte_ready_length_witness :
    (COBSDecoder.processByte ⟨2048, [2, 5], []⟩ 0).2 = true ∧
    (1 ≤ COBSDecoder.getFrameLength (COBSDecoder.processByte ⟨2048, [2, 5], []⟩ 0).1 ∧
      COBSDecoder.getFrameLength (COBSDecoder.processByte ⟨2048, [2, 5], []⟩ 0).1 ≤
        (⟨2048, [2, 5], []⟩ : COBSDecoderState).maxFrameSize) :=
  ⟨by decide, COBSDecoder.processByte_ready_length ⟨2048, [2, 5], []⟩ 0 (by decide)⟩

/-! ## CircularBuffer.h -/

/-- State of a `CircularBuffer<N>`: the backing byte array (length `N`
as an invariant), the write index, the read index and the used-byte
count. -/
structure CircularBufferState where
  buffer : List Nat
  writeIndex : Nat
  readIndex : Nat
  count : Nat
deriving Repr, DecidableEq

/-- Sequentially store bytes at an index, wrapping modulo the capacity,
returning the updated array and index — the body of the write loops. -/
def CircularBuffer.writeBytes (N : Nat) : List Nat → List Nat → Nat → List Nat × Nat
  | buf, [], idx => (buf, idx)
  | buf, b :: bs, idx => CircularBuffer.writeBytes N (buf.set idx b) bs ((idx + 1) % N)

/-- Sequentially load `k` bytes from an index, wrapping modulo the
capacity, returning the bytes and the final index — the body of the
read loop. -/
def CircularBuffer.readBytes (N : Nat) (buf : List Nat) : Nat → Nat → List Nat × Nat
  | idx, 0 => ([], idx)
  | idx, k + 1 =>
    let rest := CircularBuffer.readBytes N buf ((idx + 1) % N) k
    (buf.getD idx 0 :: rest.1, rest.2)

/-- `CircularBuffer::write`: reject empty or oversized payloads and
payloads that do not fit (with their 2-byte header) in the free space;
otherwise append the big-endian 16-bit length header and the payload,
wrapping indices modulo the capacity, and bump the used count. -/
def CircularBuffer.write (N : Nat) (s : CircularBufferState) (data : List Nat) :
    CircularBufferState × Bool :=
  if data.length = 0 ∨ N < data.length then (s, false)
  else if N < s.count + (data.length + 2) then (s, false)
  else
    let hdr := [(data.length >>> 8) &&& 0xFF, data.length &&& 0xFF]
    let w := CircularBuffer.writeBytes N s.buffer (hdr ++ data) s.writeIndex
    ({ buffer := w.1, writeIndex := w.2, readIndex := s.readIndex,
       count := s.count + (data.length + 2) }, true)

/-- `CircularBuffer::read`: return nothing when fewer than 2 bytes are
queued; read the 2-byte length header; when the declared length is
zero, exceeds `maxLength` or exceeds the queued bytes, reset the queue
(read index forced to the write index, count zeroed) and return
nothing; otherwise copy out exactly the declared bytes. -/
def CircularBuffer.read (N : Nat) (s : CircularBufferState) (maxLength : Nat) :
    CircularBufferState × List Nat :=
  if s.count < 2 then (s, [])
  else
    let lenHigh := s.buffer.getD s.readIndex 0
    let r1 := (s.readIndex + 1) % N
    let lenLow := s.buffer.getD r1 0
    let r2 := (r1 + 1) % N
    let length := (lenHigh <<< 8) ||| lenLow
    if length = 0 ∨ maxLength < length ∨ s.count < length + 2 then
      ({ s with readIndex := s.writeIndex, count := 0 }, [])
    else
      let rd := CircularBuffer.readBytes N s.buffer r2 length
      ({ s with readIndex := rd.2, count := s.count - (length + 2) }, rd.1)

/-- Well-formedness of a buffer state: the backing array has the full
capacity, both indices are in range, the used count fits, and the write
index sits `count` bytes (circularly) after the read index. -/
def CircularBuffer.wf (N : Nat) (s : CircularBufferState) : Prop :=
  s.buffer.length = N ∧ s.readIndex < N ∧ s.writeIndex < N ∧ s.count ≤ N ∧
    s.writeIndex = (s.readIndex + s.count) % N

/-- The queued content of a buffer state: the `count` bytes starting
circularly at the read index. -/
def CircularBuffer.contents (N : Nat) (s : CircularBufferState) : List Nat :=
  (CircularBuffer.readBytes N s.buffer s.readIndex s.count).1

/-- A queued entry as laid out in the ring: 16-bit big-endian length
header followed by the payload. -/
def CircularBuffer.entry (data : List Nat) : List Nat :=
  [(data.length >>> 8) &&& 0xFF, data.length &&& 0xFF] ++ data

/-- Within one window of the capacity, circular positions are
injective. -/
theorem mod_window_inj (N r j1 j2 : Nat) (h1 : j1 < N) (h2 : j2 < N)
    (he : (r + j1) % N = (r + j2) % N) : j1 = j2 := by
  have hm : j1 ≡ j2 [MOD N] := Nat.ModEq.add_left_cancel' r he
  have := hm.eq_of_lt_of_lt h1 h2
  exact this

/-- Setting one cell leaves the default read of every other cell
unchanged. -/
theorem getD_set_ne (l : List Nat) (i j : Nat) (a : Nat) (h : i ≠ j) :
    (l.set i a).getD j 0 = l.getD j 0 := by
  simp [List.getD_eq_getElem?_getD, List.getElem?_set_ne h]

/-- Setting an in-range cell makes its default read the new value. -/
theorem getD_set_self (l : List Nat) (i : Nat) (a : Nat) (h : i < l.length) :
    (l.set i a).getD i 0 = a := by
  simp [List.getD_eq_getElem?_getD, List.getElem?_set_self h]

/-- A list is the map of its default reads over its index range. -/
theorem list_eq_map_range (l : List Nat) :
    (List.range l.length).map (fun i => l.getD i 0) = l := by
  induction l with
  | nil => simp
  | cons a t ih =>
    rw [List.length_cons, List.range_succ_eq_map, List.map_cons, List.map_map]
    have e : ((fun i => (a :: t).getD i 0) ∘ Nat.succ) = fun i => t.getD i 0 := by
      funext i
      simp [List.getD_cons_succ]
    rw [e, ih]
    simp

/-- The two header bytes reassemble to the stored length for any 16-bit
value. -/
theorem header_roundtrip (n : Nat) (h : n < 65536) :
    ((((n >>> 8) &&& 0xFF) <<< 8) ||| (n &&& 0xFF)) = n := by
  have e1 : n >>> 8 = n / 256 := by
    rw [Nat.shiftRight_eq_div_pow]
  have e2 : ∀ m : Nat, m &&& 0xFF = m % 256 := by
    intro m
    have e3 := Nat.and_pow_two_sub_one_eq_mod m 8
    norm_num at e3
    exact e3
  rw [e1, e2, e2, shift8_or_eq _ _ (by omega)]
  have h2 : n / 256 % 256 = n / 256 := Nat.mod_eq_of_lt (by omega)
  rw [h2]
  omega


/-- Characterization of the circular read loop: it returns the default
reads at the `k` circular positions after the start index, and lands
`k` positions further. -/
theorem CircularBuffer.readBytes_spec (N : Nat) (hN : 0 < N) (buf : List Nat) :
    ∀ k r, r < N →
      CircularBuffer.readBytes N buf r k =
        ((List.range k).map (fun j => buf.getD ((r + j) % N) 0), (r + k) % N) := by
  intro k
  induction k with
  | zero =>
    intro r hr
    rw [CircularBuffer.readBytes]
    simp [Nat.mod_eq_of_lt hr]
  | succ k ih =>
    intro r hr
    rw [CircularBuffer.readBytes]
    rw [ih ((r + 1) % N) (Nat.mod_lt _ hN), Prod.ext_iff]
    refine ⟨?_, by simp only [Nat.mod_add_mod]; rw [Nat.add_assoc, Nat.add_comm 1 k]⟩
    simp only [List.range_succ_eq_map, List.map_cons, List.map_map]
    congr 1
    · simp [Nat.mod_eq_of_lt hr]
    · apply List.map_congr_left
      intro j hj
      simp only [Function.comp_apply]
      rw [Nat.mod_add_mod, Nat.add_assoc, Nat.add_comm 1 j]

/-- The circular write loop preserves the backing array length. -/
theorem CircularBuffer.writeBytes_length (N : Nat) :
    ∀ (data buf : List Nat) (w : Nat),
      (CircularBuffer.writeBytes N buf data w).1.length = buf.length := by
  intro data
  induction data with
  | nil => intro buf w; rw [CircularBuffer.writeBytes]
  | cons b bs ih =>
    intro buf w
    rw [CircularBuffer.writeBytes, ih]
    simp

/-- The circular write loop lands `data.length` positions after the
start index. -/
theorem CircularBuffer.writeBytes_idx (N : Nat) (hN : 0 < N) :
    ∀ (data buf : List Nat) (w : Nat), w < N →
      (CircularBuffer.writeBytes N buf data w).2 = (w + data.length) % N := by
  intro data
  induction data with
  | nil =>
    intro buf w hw
    rw [CircularBuffer.writeBytes]
    simp [Nat.mod_eq_of_lt hw]
  | cons b bs ih =>
    intro buf w hw
    rw [CircularBuffer.writeBytes, ih _ _ (Nat.mod_lt _ hN)]
    rw [Nat.mod_add_mod]
    congr 1
    simp [List.length_cons]
    omega

/-- Cells outside the circularly written window keep their old values. -/
theorem CircularBuffer.writeBytes_getD_disjoint (N : Nat) (hN : 0 < N) :
    ∀ (data buf : List Nat) (w i : Nat), w < N →
      (∀ j, j < data.length → (w + j) % N ≠ i) →
      (CircularBuffer.writeBytes N buf data w).1.getD i 0 = buf.getD i 0 := by
  intro data
  induction data with
  | nil => intro buf w i hw hdisj; rw [CircularBuffer.writeBytes]
  | cons b bs ih =>
    intro buf w i hw hdisj
    rw [CircularBuffer.writeBytes]
    rw [ih (buf.set w b) ((w + 1) % N) i (Nat.mod_lt _ hN) ?_]
    · apply getD_set_ne
      have h0 := hdisj 0 (by simp)
      simpa [Nat.mod_eq_of_lt hw] using h0
    · intro j hj
      rw [Nat.mod_add_mod, Nat.add_assoc, Nat.add_comm 1 j]
      exact hdisj (j + 1) (by simp; omega)

/-- Cells inside the circularly written window take the written bytes,
provided the window fits within one revolution. -/
theorem CircularBuffer.writeBytes_getD_written (N : Nat) (hN : 0 < N) :
    ∀ (data buf : List Nat) (w j : Nat), w < N → buf.length = N →
      data.length ≤ N → j < data.length →
      (CircularBuffer.writeBytes N buf data w).1.getD ((w + j) % N) 0 = data.getD j 0 := by
  intro data
  induction data with
  | nil => intro buf w j hw hbuf hdn hj; simp at hj
  | cons b bs ih =>
    intro buf w j hw hbuf hdn hj
    rw [CircularBuffer.writeBytes]
    cases j with
    | zero =>
      simp only [Nat.add_zero, Nat.mod_eq_of_lt hw]
      rw [CircularBuffer.writeBytes_getD_disjoint N hN bs (buf.set w b) ((w + 1) % N) w
        (Nat.mod_lt _ hN) ?_]
      · rw [getD_set_self buf w b (by omega)]
        simp
      · intro t ht hc
        rw [Nat.mod_add_mod, Nat.add_assoc] at hc
        have h1t : 1 + t < N := by simp at hdn; omega
        have := mod_window_inj N w (1 + t) 0 h1t (by omega)
          (by rw [hc, Nat.add_zero, Nat.mod_eq_of_lt hw])
        omega
    | succ j =>
      have hidx : (w + (j + 1)) % N = ((w + 1) % N + j) % N := by
        rw [Nat.mod_add_mod, Nat.add_assoc, Nat.add_comm 1 j]
      rw [hidx, ih (buf.set w b) ((w + 1) % N) j (Nat.mod_lt _ hN) (by simpa using hbuf)
        (by simp at hdn; omega) (by simp at hj; omega)]
      simp

/-- The queued content has exactly `count` bytes. -/
theorem CircularBuffer.contents_length (N : Nat) (s : CircularBufferState)
    (hwf : CircularBuffer.wf N s) : (CircularBuffer.contents N s).length = s.count := by
  obtain ⟨hbl, hr, hw, hc, hrel⟩ := hwf
  have hN : 0 < N := by omega
  rw [CircularBuffer.contents, CircularBuffer.readBytes_spec N hN s.buffer s.count s.readIndex hr]
  simp

/-- Reading the queued content at an offset reads the ring at the
corresponding circular position. -/
theorem CircularBuffer.contents_getD (N : Nat) (s : CircularBufferState)
    (hwf : CircularBuffer.wf N s) (i : Nat) (hi : i < s.count) :
    (CircularBuffer.contents N s).getD i 0 =
      s.buffer.getD ((s.readIndex + i) % N) 0 := by
  obtain ⟨hbl, hr, hw, hc, hrel⟩ := hwf
  have hN : 0 < N := by omega
  rw [CircularBuffer.contents, CircularBuffer.readBytes_spec N hN s.buffer s.count s.readIndex hr]
  simp only [List.getD_eq_getElem?_getD, List.getElem?_map, List.getElem?_range hi]
  simp

/-- The queued content as a map over circular positions. -/
theorem CircularBuffer.contents_eq_map (N : Nat) (hN : 0 < N) (s : CircularBufferState)
    (hr : s.readIndex < N) :
    CircularBuffer.contents N s =
      (List.range s.count).map (fun j => s.buffer.getD ((s.readIndex + j) % N) 0) := by
  rw [CircularBuffer.contents, CircularBuffer.readBytes_spec N hN s.buffer s.count s.readIndex hr]

/-- A successful `write` appends one length-prefixed entry to the queued
content and preserves well-formedness. -/
theorem CircularBuffer.write_spec (N : Nat) (s : CircularBufferState) (data : List Nat)
    (hwf : CircularBuffer.wf N s) (h1 : data.length ≠ 0)
    (h3 : s.count + (data.length + 2) ≤ N) :
    (CircularBuffer.write N s data).2 = true ∧
    CircularBuffer.wf N (CircularBuffer.write N s data).1 ∧
    CircularBuffer.contents N (CircularBuffer.write N s data).1 =
      CircularBuffer.contents N s ++ CircularBuffer.entry data := by
  obtain ⟨hbl, hr, hw, hc, hrel⟩ := hwf
  have hN : 0 < N := by omega
  have hent : (CircularBuffer.entry data).length = data.length + 2 := by
    simp [CircularBuffer.entry]
  have heq : CircularBuffer.write N s data =
      ({ buffer := (CircularBuffer.writeBytes N s.buffer (CircularBuffer.entry data) s.writeIndex).1,
         writeIndex := (CircularBuffer.writeBytes N s.buffer (CircularBuffer.entry data) s.writeIndex).2,
         readIndex := s.readIndex,
         count := s.count + (data.length + 2) }, true) := by
    rw [CircularBuffer.write, if_neg (by push_neg; omega), if_neg (by omega)]
    rfl
  refine ⟨by rw [heq], ?_, ?_⟩
  · rw [heq]
    refine ⟨?_, hr, ?_, ?_, ?_⟩
    · show (CircularBuffer.writeBytes N s.buffer (CircularBuffer.entry data) s.writeIndex).1.length = N
      rw [CircularBuffer.writeBytes_length]
      exact hbl
    · show (CircularBuffer.writeBytes N s.buffer (CircularBuffer.entry data) s.writeIndex).2 < N
      rw [CircularBuffer.writeBytes_idx N hN _ _ _ hw]
      exact Nat.mod_lt _ hN
    · show s.count + (data.length + 2) ≤ N
      omega
    · show (CircularBuffer.writeBytes N s.buffer (CircularBuffer.entry data) s.writeIndex).2 =
        (s.readIndex + (s.count + (data.length + 2))) % N
      rw [CircularBuffer.writeBytes_idx N hN _ _ _ hw, hent, hrel,
        Nat.mod_add_mod, Nat.add_assoc]
  · rw [heq]
    have hcnt : CircularBuffer.contents N
        ({ buffer := (CircularBuffer.writeBytes N s.buffer (CircularBuffer.entry data) s.writeIndex).1,
           writeIndex := (CircularBuffer.writeBytes N s.buffer (CircularBuffer.entry data) s.writeIndex).2,
           readIndex := s.readIndex,
           count := s.count + (data.length + 2) } : CircularBufferState) =
        (List.range (s.count + (data.length + 2))).map
          (fun j => (CircularBuffer.writeBytes N s.buffer
            (CircularBuffer.entry data) s.writeIndex).1.getD ((s.readIndex + j) % N) 0) :=
      CircularBuffer.contents_eq_map N hN _ hr
    rw [hcnt]
    rw [List.range_add, List.map_append, List.map_map]
    congr 1
    · rw [CircularBuffer.contents_eq_map N hN s hr]
      apply List.map_congr_left
      intro j hj
      rw [List.mem_range] at hj
      apply CircularBuffer.writeBytes_getD_disjoint N hN _ _ _ _ hw
      intro t ht hcon
      rw [hent] at ht
      rw [hrel, Nat.mod_add_mod, Nat.add_assoc] at hcon
      have heqj := mod_window_inj N s.readIndex (s.count + t) j (by omega) (by omega) hcon
      omega
    · conv_rhs => rw [← list_eq_map_range (CircularBuffer.entry data), hent]
      apply List.map_congr_left
      intro t ht
      rw [List.mem_range] at ht
      simp only [Function.comp_apply]
      rw [← Nat.add_assoc, ← Nat.mod_add_mod (s.readIndex + s.count), ← hrel]
      exact CircularBuffer.writeBytes_getD_written N hN _ _ _ _ hw hbl
        (by omega) (by omega)

/-- A `read` with sufficient `maxLength` on a queue whose content starts
with one entry pops exactly that entry's payload, leaving the rest. -/
theorem CircularBuffer.read_spec (N : Nat) (s : CircularBufferState)
    (data rest : List Nat) (maxLength : Nat)
    (hwf : CircularBuffer.wf N s)
    (hcont : CircularBuffer.contents N s = CircularBuffer.entry data ++ rest)
    (hne : data ≠ []) (h16 : data.length < 65536) (hmax : data.length ≤ maxLength) :
    (CircularBuffer.read N s maxLength).2 = data ∧
    CircularBuffer.wf N (CircularBuffer.read N s maxLength).1 ∧
    CircularBuffer.contents N (CircularBuffer.read N s maxLength).1 = rest := by
  obtain ⟨hbl, hr, hw, hc, hrel⟩ := hwf
  have hN : 0 < N := by omega
  have hent : (CircularBuffer.entry data).length = data.length + 2 := by
    simp [CircularBuffer.entry]
  have hdpos : data.length ≠ 0 := by
    intro h0
    exact hne (List.length_eq_zero.mp h0)
  have hcl : s.count = data.length + 2 + rest.length := by
    have hlen := CircularBuffer.contents_length N s ⟨hbl, hr, hw, hc, hrel⟩
    rw [hcont, List.length_append, hent] at hlen
    omega
  have hb0 : s.buffer.getD s.readIndex 0 = (data.length >>> 8) &&& 0xFF := by
    have h0 := CircularBuffer.contents_getD N s ⟨hbl, hr, hw, hc, hrel⟩ 0 (by omega)
    rw [hcont, List.getD_append _ _ _ _ (by omega)] at h0
    rw [Nat.add_zero, Nat.mod_eq_of_lt hr] at h0
    rw [← h0]
    simp [CircularBuffer.entry]
  have hb1 : s.buffer.getD ((s.readIndex + 1) % N) 0 = data.length &&& 0xFF := by
    have h0 := CircularBuffer.contents_getD N s ⟨hbl, hr, hw, hc, hrel⟩ 1 (by omega)
    rw [hcont, List.getD_append _ _ _ _ (by omega)] at h0
    rw [← h0]
    simp [CircularBuffer.entry]
  have hlen : ((s.buffer.getD s.readIndex 0) <<< 8) ||| s.buffer.getD ((s.readIndex + 1) % N) 0 =
      data.length := by
    rw [hb0, hb1]
    exact header_roundtrip data.length h16
  have hr2 : ∀ j : Nat, ((s.readIndex + 1) % N + 1) % N = (s.readIndex + 2) % N := by
    intro j
    rw [Nat.mod_add_mod, Nat.add_assoc]
  have heq : CircularBuffer.read N s maxLength =
      ({ s with
         readIndex := (CircularBuffer.readBytes N s.buffer ((s.readIndex + 2) % N) data.length).2,
         count := s.count - (data.length + 2) },
       (CircularBuffer.readBytes N s.buffer ((s.readIndex + 2) % N) data.length).1) := by
    rw [CircularBuffer.read, if_neg (by omega)]
    simp only []
    rw [hlen, hr2 0]
    rw [if_neg (by push_neg; exact ⟨hdpos, hmax, by omega⟩)]
  have hdata : (CircularBuffer.readBytes N s.buffer ((s.readIndex + 2) % N) data.length).1 =
      data := by
    rw [CircularBuffer.readBytes_spec N hN _ _ _ (Nat.mod_lt _ hN)]
    conv_rhs => rw [← list_eq_map_range data]
    apply List.map_congr_left
    intro j hj
    rw [List.mem_range] at hj
    have e1 : ((s.readIndex + 2) % N + j) % N = (s.readIndex + (2 + j)) % N := by
      rw [Nat.mod_add_mod, Nat.add_assoc]
    rw [e1]
    have e2 := CircularBuffer.contents_getD N s ⟨hbl, hr, hw, hc, hrel⟩ (2 + j) (by omega)
    rw [hcont, List.getD_append _ _ _ _ (by omega)] at e2
    rw [← e2]
    have e4 : 2 + j = j + 1 + 1 := by omega
    rw [e4]
    simp [CircularBuffer.entry]
  have hidx : (CircularBuffer.readBytes N s.buffer ((s.readIndex + 2) % N) data.length).2 =
      (s.readIndex + (2 + data.length)) % N := by
    rw [CircularBuffer.readBytes_spec N hN _ _ _ (Nat.mod_lt _ hN)]
    rw [Nat.mod_add_mod, Nat.add_assoc]
  refine ⟨by rw [heq, hdata], ?_, ?_⟩
  · rw [heq]
    refine ⟨hbl, ?_, hw, ?_, ?_⟩
    · show (CircularBuffer.readBytes N s.buffer ((s.readIndex + 2) % N) data.length).2 < N
      rw [hidx]
      exact Nat.mod_lt _ hN
    · show s.count - (data.length + 2) ≤ N
      omega
    · show s.writeIndex =
        ((CircularBuffer.readBytes N s.buffer ((s.readIndex + 2) % N) data.length).2 +
          (s.count - (data.length + 2))) % N
      rw [hidx, Nat.mod_add_mod, hrel]
      congr 1
      omega
  · rw [heq]
    have hcnt : CircularBuffer.contents N
        ({ s with
           readIndex := (CircularBuffer.readBytes N s.buffer ((s.readIndex + 2) % N) data.length).2,
           count := s.count - (data.length + 2) } : CircularBufferState) =
        (List.range (s.count - (data.length + 2))).map
          (fun j => s.buffer.getD
            (((CircularBuffer.readBytes N s.buffer ((s.readIndex + 2) % N) data.length).2 + j) % N) 0) :=
      CircularBuffer.contents_eq_map N hN _ (by rw [hidx]; exact Nat.mod_lt _ hN)
    rw [hcnt]
    conv_rhs => rw [← list_eq_map_range rest]
    have hrlen : s.count - (data.length + 2) = rest.length := by omega
    rw [hrlen]
    apply List.map_congr_left
    intro j hj
    rw [List.mem_range] at hj
    rw [hidx, Nat.mod_add_mod]
    have e3 : s.readIndex + (2 + data.length) + j = s.readIndex + (2 + data.length + j) := by
      omega
    rw [e3]
    have e2 := CircularBuffer.contents_getD N s ⟨hbl, hr, hw, hc, hrel⟩
      (2 + data.length + j) (by omega)
    rw [hcont, List.getD_append_right _ _ _ _ (by omega)] at e2
    rw [← e2]
    congr 1
    omega

/-- Claim C7: on a read with at least 2 queued bytes, a declared length
of zero, above `maxLength`, or above the queued bytes resets the queue
to a consistent empty state — read index forced to the write index,
used count zeroed, no payload byte copied out — and returns nothing. -/
theorem CircularBuffer.read_corrupt_resets (N : Nat) (s : CircularBufferState)
    (maxLength : Nat) (h2 : 2 ≤ s.count)
    (hbad : ((s.buffer.getD s.readIndex 0 <<< 8) |||
        s.buffer.getD ((s.readIndex + 1) % N) 0) = 0 ∨
      maxLength < ((s.buffer.getD s.readIndex 0 <<< 8) |||
        s.buffer.getD ((s.readIndex + 1) % N) 0) ∨
      s.count < ((s.buffer.getD s.readIndex 0 <<< 8) |||
        s.buffer.getD ((s.readIndex + 1) % N) 0) + 2) :
    CircularBuffer.read N s maxLength =
      ({ s with readIndex := s.writeIndex, count := 0 }, []) ∧
    CircularBuffer.contents N ({ s with readIndex := s.writeIndex, count := 0 }) = [] := by
  constructor
  · rw [CircularBuffer.read, if_neg (by omega)]
    simp only []
    rw [if_pos hbad]
  · rw [CircularBuffer.contents]
    rfl

/-- Witness for claim C7 at a concrete 4-byte queue whose header
declares a zero length. -/
theorem CircularBuffer.read_corrupt_resets_witness :
    (2 ≤ (⟨[0, 0, 0, 0], 2, 0, 2⟩ : CircularBufferState).count) ∧
    (CircularBuffer.read 4 ⟨[0, 0, 0, 0], 2, 0, 2⟩ 10 =
      ({ (⟨[0, 0, 0, 0], 2, 0, 2⟩ : CircularBufferState) with readIndex := 2, count := 0 }, []) ∧
     CircularBuffer.contents 4
       ({ (⟨[0, 0, 0, 0], 2, 0, 2⟩ : CircularBufferState) with readIndex := 2, count := 0 }) = []) :=
  ⟨by decide, CircularBuffer.read_corrupt_resets 4 ⟨[0, 0, 0, 0], 2, 0, 2⟩ 10
    (by decide) (by decide)⟩

/-- Run a sequence of writes, reporting whether all of them succeeded. -/
def CircularBuffer.writeAll (N : Nat) :
    CircularBufferState → List (List Nat) → CircularBufferState × Bool
  | s, [] => (s, true)
  | s, d :: ds =>
    let w := CircularBuffer.write N s d
    let rest := CircularBuffer.writeAll N w.1 ds
    (rest.1, w.2 && rest.2)

/-- Run a sequence of reads with the given `maxLength` values,
collecting the returned payloads. -/
def CircularBuffer.readAll (N : Nat) :
    CircularBufferState → List Nat → CircularBufferState × List (List Nat)
  | s, [] => (s, [])
  | s, m :: ms =>
    let r := CircularBuffer.read N s m
    let rest := CircularBuffer.readAll N r.1 ms
    (rest.1, r.2 :: rest.2)

/-- Writes whose cumulative entry sizes fit the free space all succeed
and append their entries in order. -/
theorem CircularBuffer.writeAll_spec (N : Nat) :
    ∀ (ds : List (List Nat)) (s : CircularBufferState), CircularBuffer.wf N s →
      (∀ d ∈ ds, d ≠ []) →
      s.count + ((ds.map (fun d => d.length + 2)).sum) ≤ N →
      (CircularBuffer.writeAll N s ds).2 = true ∧
      CircularBuffer.wf N (CircularBuffer.writeAll N s ds).1 ∧
      CircularBuffer.contents N (CircularBuffer.writeAll N s ds).1 =
        CircularBuffer.contents N s ++ (ds.map CircularBuffer.entry).flatten := by
  intro ds
  induction ds with
  | nil =>
    intro s hwf _ _
    rw [CircularBuffer.writeAll]
    exact ⟨rfl, hwf, by simp⟩
  | cons d ds ih =>
    intro s hwf hne hsum
    simp only [List.map_cons, List.sum_cons] at hsum
    have hd : d.length ≠ 0 := by
      intro h0
      exact hne d (by simp) (List.length_eq_zero.mp h0)
    have hw := CircularBuffer.write_spec N s d hwf hd (by omega)
    have hc' : (CircularBuffer.write N s d).1.count = s.count + (d.length + 2) := by
      have h1 := CircularBuffer.contents_length N _ hw.2.1
      rw [hw.2.2, List.length_append] at h1
      have h2 := CircularBuffer.contents_length N s hwf
      have h3 : (CircularBuffer.entry d).length = d.length + 2 := by
        simp [CircularBuffer.entry]
      omega
    have hih := ih (CircularBuffer.write N s d).1 hw.2.1
      (fun x hx => hne x (by simp [hx])) (by rw [hc']; omega)
    rw [CircularBuffer.writeAll]
    simp only []
    refine ⟨by rw [hw.1, hih.1]; rfl, hih.2.1, ?_⟩
    rw [hih.2.2, hw.2.2, List.map_cons, List.flatten_cons, List.append_assoc]

/-- Reads with sufficient `maxLength` values return the queued entries'
payloads in FIFO order. -/
theorem CircularBuffer.readAll_spec (N : Nat) :
    ∀ (ps : List (List Nat × Nat)) (s : CircularBufferState), CircularBuffer.wf N s →
      CircularBuffer.contents N s = (ps.map (fun p => CircularBuffer.entry p.1)).flatten →
      (∀ p ∈ ps, p.1 ≠ []) → (∀ p ∈ ps, p.1.length < 65536) →
      (∀ p ∈ ps, p.1.length ≤ p.2) →
      (CircularBuffer.readAll N s (ps.map (fun p => p.2))).2 = ps.map (fun p => p.1) := by
  intro ps
  induction ps with
  | nil => intro s _ _ _ _ _; rfl
  | cons p ps ih =>
    intro s hwf hcont hne h16 hmax
    rw [List.map_cons, List.flatten_cons] at hcont
    have hrd := CircularBuffer.read_spec N s p.1 _
      p.2 hwf hcont (hne p (by simp)) (h16 p (by simp)) (hmax p (by simp))
    have hrest := ih (CircularBuffer.read N s p.2).1 hrd.2.1 hrd.2.2
      (fun x hx => hne x (by simp [hx])) (fun x hx => h16 x (by simp [hx]))
      (fun x hx => hmax x (by simp [hx]))
    rw [List.map_cons, CircularBuffer.readAll]
    show (CircularBuffer.read N s p.2).2 ::
        (CircularBuffer.readAll N (CircularBuffer.read N s p.2).1
          (ps.map (fun q => q.2))).2 =
      p.1 :: ps.map (fun q => q.1)
    rw [hrd.1, hrest]

/-- Claim C3: starting from a well-formed empty queue, any sequence of
writes whose cumulative size including the 2-byte headers fits the
capacity all succeed, and subsequent reads with sufficient `maxLength`
values return exactly the written payloads in FIFO order; a write that
would exceed the remaining capacity returns false and leaves the state
(buffer, indices and used count) unchanged; a read on an empty queue
returns nothing without side effects. -/
theorem CircularBuffer.fifo_queue (N : Nat) (ps : List (List Nat × Nat))
    (s : CircularBufferState)
    (hwf : CircularBuffer.wf N s) (hempty : s.count = 0)
    (hne : ∀ p ∈ ps, p.1 ≠ [])
    (h16 : ∀ p ∈ ps, p.1.length < 65536)
    (hmax : ∀ p ∈ ps, p.1.length ≤ p.2)
    (hsum : ((ps.map (fun p => p.1.length + 2)).sum) ≤ N) :
    (CircularBuffer.writeAll N s (ps.map (fun p => p.1))).2 = true ∧
    (CircularBuffer.readAll N (CircularBuffer.writeAll N s (ps.map (fun p => p.1))).1
      (ps.map (fun p => p.2))).2 = ps.map (fun p => p.1) ∧
    (∀ (t : CircularBufferState) (d : List Nat), N < t.count + (d.length + 2) →
      CircularBuffer.write N t d = (t, false)) ∧
    (∀ m, CircularBuffer.read N s m = (s, [])) := by
  have hc0 : CircularBuffer.contents N s = [] := by
    rw [CircularBuffer.contents, hempty]
    rfl
  have hsum' : ((ps.map (fun p => p.1)).map (fun d => d.length + 2)).sum =
      (ps.map (fun p => p.1.length + 2)).sum := by
    rw [List.map_map]
    rfl
  have hwa := CircularBuffer.writeAll_spec N (ps.map (fun p => p.1)) s hwf
    (by intro d hd; rw [List.mem_map] at hd; obtain ⟨p, hp, rfl⟩ := hd; exact hne p hp)
    (by rw [hsum']; omega)
  refine ⟨hwa.1, ?_, ?_, ?_⟩
  · apply CircularBuffer.readAll_spec N ps _ hwa.2.1 _ hne h16 hmax
    rw [hwa.2.2, hc0, List.nil_append, List.map_map]
    rfl
  · intro t d hcap
    by_cases hg : d.length = 0 ∨ N < d.length
    · rw [CircularBuffer.write, if_pos hg]
    · rw [CircularBuffer.write, if_neg hg, if_pos (by omega)]
  · intro m
    rw [CircularBuffer.read, if_pos (by omega)]

/-- Witness for claim C3 at a 16-byte queue and two concrete payloads. -/
theorem CircularBuffer.fifo_queue_witness :
    (CircularBuffer.wf 16 ⟨List.replicate 16 0, 0, 0, 0⟩ ∧
      (⟨List.replicate 16 0, 0, 0, 0⟩ : CircularBufferState).count = 0) ∧
    (CircularBuffer.writeAll 16 ⟨List.replicate 16 0, 0, 0, 0⟩
      ([([1, 2, 3], 3), ([9], 5)].map (fun p => p.1))).2 = true ∧
    (CircularBuffer.readAll 16
      (CircularBuffer.writeAll 16 ⟨List.replicate 16 0, 0, 0, 0⟩
        ([([1, 2, 3], 3), ([9], 5)].map (fun p => p.1))).1
      ([([1, 2, 3], 3), ([9], 5)].map (fun p => p.2))).2 =
      [([1, 2, 3], 3), ([9], 5)].map (fun p => p.1) := by
  have h := CircularBuffer.fifo_queue 16 [([1, 2, 3], 3), ([9], 5)]
    ⟨List.replicate 16 0, 0, 0, 0⟩
    (by refine ⟨?_, ?_, ?_, ?_, ?_⟩ <;> decide) (by decide)
    (by decide) (by decide) (by decide) (by decide)
  exact ⟨⟨(by refine ⟨?_, ?_, ?_, ?_, ?_⟩ <;> decide), by decide⟩, h.1, h.2.1⟩

/-! ## BrightnessLimiter.h -/

/-- Configuration of a `BrightnessLimiter`: total LED count, maximum and
minimum brightness scales, and the lit-count threshold for full
brightness. -/
structure BrightnessLimiter where
  totalLEDs : Nat
  maxScale : Nat
  minScale : Nat
  thresholdCount : Nat
deriving Repr, DecidableEq

/-- Lit-pixel count of the first `pixelCount` RGB triplets: pixels whose
bitwise-or of channels is non-zero, accumulated in a 16-bit counter. -/
def BrightnessLimiter.litCount (rgbData : List Nat) (pixelCount : Nat) : Nat :=
  ((List.range pixelCount).filter
    (fun i => (rgbData.getD (i * 3) 0 ||| rgbData.getD (i * 3 + 1) 0 |||
      rgbData.getD (i * 3 + 2) 0) != 0)).length % 65536

/-- Brightness scale selection of `limitBrightness`: full scale at or
under the threshold, minimum scale at or over the total, and linear
interpolation with floor division in between. -/
def BrightnessLimiter.scaleFor (L : BrightnessLimiter) (litCount : Nat) : Nat :=
  if litCount ≤ L.thresholdCount then L.maxScale
  else if L.totalLEDs ≤ litCount then L.minScale
  else
    L.maxScale - ((litCount - L.thresholdCount) * (L.maxScale - L.minScale)) /
      (L.totalLEDs - L.thresholdCount)

/-- `BrightnessLimiter::limitBrightness`: count lit pixels, select the
scale, then replace each channel byte `c` of the first `pixelCount`
triplets, in place, by `c * scale >> 8`. -/
def BrightnessLimiter.limitBrightness (L : BrightnessLimiter) (rgbData : List Nat)
    (pixelCount : Nat) : List Nat :=
  let scale := L.scaleFor (BrightnessLimiter.litCount rgbData pixelCount)
  rgbData.mapIdx (fun k c => if k < pixelCount * 3 then (c * scale) >>> 8 else c)

/-- A bitwise or of naturals vanishes exactly when both sides do. -/
theorem lor_eq_zero_iff (a b : Nat) : a ||| b = 0 ↔ a = 0 ∧ b = 0 := by
  constructor
  · intro h
    have hk : ∀ k, a.testBit k = false ∧ b.testBit k = false := by
      intro k
      have hc := congrArg (fun x => x.testBit k) h
      simpa [Nat.testBit_lor] using hc
    constructor
    · apply Nat.eq_of_testBit_eq
      intro k
      simp [(hk k).1]
    · apply Nat.eq_of_testBit_eq
      intro k
      simp [(hk k).2]
  · rintro ⟨rfl, rfl⟩
    rfl

/-- The code's lit test `r | g | b` nonzero agrees with the spec's "any
non-zero component". -/
theorem lit_pred_eq (a b c : Nat) :
    ((a ||| b ||| c) != 0) = !(a == 0 && b == 0 && c == 0) := by
  rw [Bool.eq_iff_iff]
  simp only [bne_iff_ne, ne_eq, lor_eq_zero_iff, Bool.not_eq_true', Bool.and_eq_false_iff,
    beq_eq_false_iff_ne]
  tauto

/-- Claim C6: `limitBrightness` computes the lit count as the number of
pixels with any non-zero component, selects the scale as `maxScale` at
or under the threshold, `minScale` at or over the total, and otherwise
by the linear interpolation formula with floor division, and replaces
each channel byte `c` of the first `pixelCount` pixels, in place, by
`c * scale / 256` truncated, leaving the remaining bytes unchanged. -/
theorem BrightnessLimiter.limitBrightness_spec (L : BrightnessLimiter)
    (rgbData : List Nat) (pixelCount : Nat) (lit scale : Nat)
    (hcnt : pixelCount < 65536)
    (hlit : lit = ((List.range pixelCount).filter (fun i =>
      !(rgbData.getD (i * 3) 0 == 0 && rgbData.getD (i * 3 + 1) 0 == 0 &&
        rgbData.getD (i * 3 + 2) 0 == 0))).length)
    (hscale : scale = if lit ≤ L.thresholdCount then L.maxScale
      else if L.totalLEDs ≤ lit then L.minScale
      else L.maxScale - (lit - L.thresholdCount) * (L.maxScale - L.minScale) /
        (L.totalLEDs - L.thresholdCount)) :
    BrightnessLimiter.litCount rgbData pixelCount = lit ∧
    L.scaleFor (BrightnessLimiter.litCount rgbData pixelCount) = scale ∧
    (BrightnessLimiter.limitBrightness L rgbData pixelCount).length = rgbData.length ∧
    (∀ k, k < pixelCount * 3 →
      (BrightnessLimiter.limitBrightness L rgbData pixelCount).getD k 0 =
        rgbData.getD k 0 * scale / 256) ∧
    (∀ k, pixelCount * 3 ≤ k →
      (BrightnessLimiter.limitBrightness L rgbData pixelCount).getD k 0 =
        rgbData.getD k 0) := by
  have h1 : BrightnessLimiter.litCount rgbData pixelCount = lit := by
    rw [BrightnessLimiter.litCount]
    rw [List.filter_congr (fun i _ => lit_pred_eq (rgbData.getD (i * 3) 0)
      (rgbData.getD (i * 3 + 1) 0) (rgbData.getD (i * 3 + 2) 0))]
    rw [Nat.mod_eq_of_lt (by
      have hle := List.length_filter_le (fun i =>
        !(rgbData.getD (i * 3) 0 == 0 && rgbData.getD (i * 3 + 1) 0 == 0 &&
          rgbData.getD (i * 3 + 2) 0 == 0)) (List.range pixelCount)
      simp only [List.length_range] at hle
      omega)]
    rw [hlit]
  have h2 : L.scaleFor (BrightnessLimiter.litCount rgbData pixelCount) = scale := by
    rw [h1, hscale, BrightnessLimiter.scaleFor]
  have hlb : BrightnessLimiter.limitBrightness L rgbData pixelCount =
      rgbData.mapIdx (fun k c => if k < pixelCount * 3 then
        (c * L.scaleFor (BrightnessLimiter.litCount rgbData pixelCount)) >>> 8 else c) :=
    rfl
  refine ⟨h1, h2, by rw [hlb]; simp, ?_, ?_⟩
  · intro k hk
    rw [hlb]
    rw [List.getD_eq_getElem?_getD, List.getElem?_mapIdx]
    cases hx : rgbData[k]? with
    | none =>
      have : rgbData.getD k 0 = 0 := by simp [List.getD_eq_getElem?_getD, hx]
      simp [hx, this]
    | some c =>
      have : rgbData.getD k 0 = c := by simp [List.getD_eq_getElem?_getD, hx]
      rw [this]
      simp only [Option.map_some', Option.getD_some, if_pos hk, h2]
      rw [Nat.shiftRight_eq_div_pow]
  · intro k hk
    rw [hlb]
    rw [List.getD_eq_getElem?_getD, List.getElem?_mapIdx]
    cases hx : rgbData[k]? with
    | none => simp [List.getD_eq_getElem?_getD, hx]
    | some c =>
      simp [List.getD_eq_getElem?_getD, hx, Nat.not_lt.mpr hk]

/-- Concrete single-pixel payload used in the brightness witnesses. -/
def samplePixel : List Nat := [2, 0, 0]

/-- Witness for claim C6 at the default limiter and one pixel. -/
theorem BrightnessLimiter.limitBrightness_spec_witness :
    ((1 : Nat) < 65536 ∧
      (1 : Nat) = ((List.range 1).filter (fun i =>
        !(samplePixel.getD (i * 3) 0 == 0 && samplePixel.getD (i * 3 + 1) 0 == 0 &&
          samplePixel.getD (i * 3 + 2) 0 == 0))).length) ∧
    BrightnessLimiter.litCount samplePixel 1 = 1 ∧
    (BrightnessLimiter.mk 100 255 102 4).scaleFor (BrightnessLimiter.litCount samplePixel 1) =
      255 ∧
    (∀ k, k < 1 * 3 →
      (BrightnessLimiter.limitBrightness (BrightnessLimiter.mk 100 255 102 4)
        samplePixel 1).getD k 0 = samplePixel.getD k 0 * 255 / 256) := by
  have h := BrightnessLimiter.limitBrightness_spec (BrightnessLimiter.mk 100 255 102 4)
    samplePixel 1 1 255 (by decide) (by decide) (by decide)
  exact ⟨⟨by decide, by decide⟩, h.1, h.2.1, h.2.2.2.1⟩

/-- Counterexample to claim C5 as stated: one lit pixel `(2,0,0)` out of
100 LEDs is at most the threshold 4, so the selected scale is the
maximum 255 — yet applying the limiter changes the pixel to `(1,0,0)`
(each non-zero byte is decremented by `c * 255 >> 8`), and applying it
twice gives `(0,0,0)`, different from applying it once. -/
theorem BrightnessLimiter.maxScale_not_identity_cex :
    BrightnessLimiter.litCount samplePixel 1 = 1 ∧
    (1 : Nat) ≤ (BrightnessLimiter.mk 100 255 102 4).thresholdCount ∧
    (BrightnessLimiter.mk 100 255 102 4).scaleFor 1 = 255 ∧
    BrightnessLimiter.limitBrightness (BrightnessLimiter.mk 100 255 102 4)
      samplePixel 1 = [1, 0, 0] ∧
    ([1, 0, 0] : List Nat) ≠ samplePixel ∧
    BrightnessLimiter.limitBrightness (BrightnessLimiter.mk 100 255 102 4)
      (BrightnessLimiter.limitBrightness (BrightnessLimiter.mk 100 255 102 4)
        samplePixel 1) 1 = [0, 0, 0] := by
  decide

/-- Scaling a byte by 255 with the right-shift-8 idiom decrements every
non-zero byte by one. -/
theorem mul255_shift : ∀ c, c < 256 → (c * 255) >>> 8 = c - min c 1 := by
  decide

/-- Claim C5, amended: when the selected scale is the maximum 255 (the
lit-pixel count at most the threshold), applying the limiter replaces
every affected byte `c` by `c * 255 >> 8`, which is `c - 1` for
non-zero `c` and `0` for zero — bytes are nearly, but not exactly,
unchanged, so double application is not the same as single
application. -/
theorem BrightnessLimiter.limitBrightness_maxScale (L : BrightnessLimiter)
    (rgbData : List Nat) (pixelCount : Nat)
    (hscale : L.scaleFor (BrightnessLimiter.litCount rgbData pixelCount) = 255)
    (hb : ∀ b ∈ rgbData, b < 256) :
    ∀ k, k < pixelCount * 3 →
      (BrightnessLimiter.limitBrightness L rgbData pixelCount).getD k 0 =
        rgbData.getD k 0 - min (rgbData.getD k 0) 1 := by
  intro k hk
  have hlb : BrightnessLimiter.limitBrightness L rgbData pixelCount =
      rgbData.mapIdx (fun j c => if j < pixelCount * 3 then
        (c * L.scaleFor (BrightnessLimiter.litCount rgbData pixelCount)) >>> 8 else c) :=
    rfl
  rw [hlb, List.getD_eq_getElem?_getD, List.getElem?_mapIdx]
  cases hx : rgbData[k]? with
  | none =>
    have h0 : rgbData.getD k 0 = 0 := by simp [List.getD_eq_getElem?_getD, hx]
    simp [hx, h0]
  | some c =>
    have h0 : rgbData.getD k 0 = c := by simp [List.getD_eq_getElem?_getD, hx]
    have hcm : c ∈ rgbData := List.getElem?_mem hx
    rw [h0]
    simp only [Option.map_some', Option.getD_some, if_pos hk, hscale]
    exact mul255_shift c (hb c hcm)

/-- Witness for the amended claim C5 at the default limiter and the
single pixel `(2,0,0)`. -/
theorem BrightnessLimiter.limitBrightness_maxScale_witness :
    ((BrightnessLimiter.mk 100 255 102 4).scaleFor
        (BrightnessLimiter.litCount samplePixel 1) = 255 ∧
      (∀ b ∈ samplePixel, b < 256)) ∧
    (∀ k, k < 1 * 3 →
      (BrightnessLimiter.limitBrightness (BrightnessLimiter.mk 100 255 102 4)
        samplePixel 1).getD k 0 = samplePixel.getD k 0 - min (samplePixel.getD k 0) 1) :=
  ⟨⟨by decide, by decide⟩,
    BrightnessLimiter.limitBrightness_maxScale (BrightnessLimiter.mk 100 255 102 4)
      samplePixel 1 (by decide) (by decide)⟩

/-! ## Orb.h and DDPController.h -/

/-- LED output target, mirroring `Orb`: a pixel count and the strip
contents as RGB triplets. -/
structure Orb where
  numLEDs : Nat
  pixels : List (Nat × Nat × Nat)
deriving Repr, DecidableEq

/-- `Orb::pixelSet`: set one pixel, guarded by the strip bound. -/
def Orb.pixelSet (orb : Orb) (index r g b : Nat) : Orb :=
  if index < orb.numLEDs then { orb with pixels := orb.pixels.set index (r, g, b) }
  else orb

/-- The controller's brightness limiter, constructed over the orb's LED
count with the default scales and threshold. -/
def DDPController.limiter (orb : Orb) : BrightnessLimiter :=
  BrightnessLimiter.mk orb.numLEDs 255 102 4

/-- `DDPController::applyPixelData`: convert the byte offset to a start
pixel (a `uint16_t`, hence the truncation modulo 65536), drop packets
starting at or beyond the strip, clamp the pixel count to the available
LEDs, run the brightness limiter over the clamped payload, and write
each resulting triplet. -/
def DDPController.applyPixelData (orb : Orb) (packet : DDPPacket) : Orb :=
  let pixelCount := DDPProtocol.getPixelCount packet
  let startPixel := (packet.dataOffset / 3) % 65536
  if orb.numLEDs ≤ startPixel then orb
  else
    let pixelCount := if orb.numLEDs < startPixel + pixelCount then
      orb.numLEDs - startPixel else pixelCount
    let data := (DDPController.limiter orb).limitBrightness packet.data pixelCount
    (List.range pixelCount).foldl (fun o i =>
      Orb.pixelSet o (startPixel + i) (data.getD (i * 3) 0) (data.getD (i * 3 + 1) 0)
        (data.getD (i * 3 + 2) 0)) orb

/-- Observable outcome of one render tick: the resulting strip, how many
hardware flushes were issued, and the processed/dropped counter
deltas. -/
structure RenderResult where
  orb : Orb
  flushes : Nat
  processedDelta : Nat
  droppedDelta : Nat
deriving Repr, DecidableEq

/-- The part of `DDPController::update` that follows a successful parse:
apply the pixel data, flush when the push flag is set, and count the
packet as processed. -/
def DDPController.renderPacket (orb : Orb) (packet : DDPPacket) : RenderResult :=
  { orb := DDPController.applyPixelData orb packet,
    flushes := if packet.shouldPush then 1 else 0,
    processedDelta := 1,
    droppedDelta := 0 }

/-- One render tick of `DDPController::update` on a frame already read
from the queue: parse failures drop the frame; successes are rendered
by `renderPacket`. -/
def DDPController.update (orb : Orb) (packetData : List Nat) : RenderResult :=
  match DDPProtocol.parsePacket packetData with
  | none => { orb := orb, flushes := 0, processedDelta := 0, droppedDelta := 1 }
  | some packet => DDPController.renderPacket orb packet

/-- A 10-LED strip, all dark, used in concrete render scenarios. -/
def orb10 : Orb :=
  ⟨10, List.replicate 10 (0, 0, 0)⟩

/-- A pushed packet for destination 1 whose byte offset 300 addresses
pixel 100, beyond a 10-LED strip. -/
def frameC1 : List Nat :=
  [0x41, 0, 1, 1, 0, 0, 1, 44, 0, 3, 9, 9, 9]

/-- Counterexample to claim C1 as stated: a successfully parsed packet
whose start pixel 100 is beyond the 10-pixel strip writes no pixel, but
the render tick still issues a flush because the push flag is honored
after `applyPixelData` returns early, and the packet is counted as
processed, not dropped. -/
theorem DDPController.outOfRange_still_flushes_cex :
    DDPProtocol.parsePacket frameC1 = some ⟨0x41, 0, 1, 1, 300, 3, [9, 9, 9]⟩ ∧
    (⟨0x41, 0, 1, 1, 300, 3, [9, 9, 9]⟩ : DDPPacket).shouldPush = true ∧
    orb10.numLEDs ≤ ((300 : Nat) / 3) % 65536 ∧
    DDPController.update orb10 frameC1 =
      { orb := orb10, flushes := 1, processedDelta := 1, droppedDelta := 0 } := by
  decide

/-- Claim C1, amended: for every successfully parsed packet whose start
pixel (`dataOffset / 3`, truncated to 16 bits) is at or beyond the
strip's pixel count, the render tick writes no pixel — the strip is
untouched — but the push flag is still honored: a flush is issued
exactly when it is set, and the packet counts as processed rather than
dropped. -/
theorem DDPController.update_outOfRange (orb : Orb) (frame : List Nat) (p : DDPPacket)
    (hp : DDPProtocol.parsePacket frame = some p)
    (hoob : orb.numLEDs ≤ (p.dataOffset / 3) % 65536) :
    DDPController.update orb frame =
      { orb := orb, flushes := if p.shouldPush then 1 else 0,
        processedDelta := 1, droppedDelta := 0 } := by
  have happ : DDPController.applyPixelData orb p = orb := by
    rw [DDPController.applyPixelData]
    simp only []
    rw [if_pos hoob]
  rw [DDPController.update, hp]
  simp only [DDPController.renderPacket, happ]

/-- Witness for the amended claim C1 at the concrete out-of-range pushed
packet. -/
theorem DDPController.update_outOfRange_witness :
    (DDPProtocol.parsePacket frameC1 = some ⟨0x41, 0, 1, 1, 300, 3, [9, 9, 9]⟩ ∧
      orb10.numLEDs ≤ (((⟨0x41, 0, 1, 1, 300, 3, [9, 9, 9]⟩ : DDPPacket).dataOffset / 3)) % 65536) ∧
    DDPController.update orb10 frameC1 =
      { orb := orb10,
        flushes := if (⟨0x41, 0, 1, 1, 300, 3, [9, 9, 9]⟩ : DDPPacket).shouldPush then 1 else 0,
        processedDelta := 1, droppedDelta := 0 } :=
  ⟨⟨by decide, by decide⟩,
    DDPController.update_outOfRange orb10 frameC1 ⟨0x41, 0, 1, 1, 300, 3, [9, 9, 9]⟩
      (by decide) (by decide)⟩

/-- A pushed packet addressed to destination id 99, for which no channel
is configured anywhere in the firmware. -/
def frameC8 : List Nat :=
  [0x41, 0, 1, 99, 0, 0, 0, 0, 0, 3, 255, 255, 255]

/-- Counterexample to claim C8 as stated: the render tick never consults
the destination id — a successfully parsed packet for the unconfigured
destination 99 is applied to the single output (pixel 0 is written and
a flush is issued) and the dropped counter is not incremented. -/
theorem DDPController.unknownDest_applied_cex :
    DDPProtocol.parsePacket frameC8 = some ⟨0x41, 0, 1, 99, 0, 3, [255, 255, 255]⟩ ∧
    (DDPController.update orb10 frameC8).orb ≠ orb10 ∧
    (DDPController.update orb10 frameC8).flushes = 1 ∧
    (DDPController.update orb10 frameC8).processedDelta = 1 ∧
    (DDPController.update orb10 frameC8).droppedDelta = 0 := by
  decide

/-- Claim C8, amended: the render tick ignores the destination id
entirely — rendering a successfully parsed packet gives the same
result for every destination id, no packet is dropped for an unknown
id, and every rendered packet counts as processed. -/
theorem DDPController.renderPacket_destId_irrelevant (orb : Orb) (p : DDPPacket) (d : Nat) :
    DDPController.renderPacket orb { p with destId := d } =
      DDPController.renderPacket orb p ∧
    (DDPController.renderPacket orb p).droppedDelta = 0 ∧
    (DDPController.renderPacket orb p).processedDelta = 1 :=
  ⟨rfl, rfl, rfl⟩

/-- `pixelSet` never grows the strip, and leaves every pixel at or
beyond the strip bound untouched. -/
theorem Orb.pixelSet_preserve (orb : Orb) (idx r g b i : Nat) (hi : orb.numLEDs ≤ i) :
    (Orb.pixelSet orb idx r g b).numLEDs = orb.numLEDs ∧
    (Orb.pixelSet orb idx r g b).pixels.length = orb.pixels.length ∧
    (Orb.pixelSet orb idx r g b).pixels.getD i (0, 0, 0) = orb.pixels.getD i (0, 0, 0) := by
  rw [Orb.pixelSet]
  split
  · rename_i hlt
    refine ⟨rfl, by simp, ?_⟩
    show (orb.pixels.set idx (r, g, b)).getD i (0, 0, 0) = orb.pixels.getD i (0, 0, 0)
    simp [List.getD_eq_getElem?_getD, List.getElem?_set_ne (show idx ≠ i by omega)]
  · exact ⟨rfl, rfl, rfl⟩

/-- The pixel write loop preserves the strip bound, the strip length,
and every pixel at or beyond the bound. -/
theorem DDPController.writeLoop_preserve (data : List Nat) (sp i : Nat) :
    ∀ (js : List Nat) (orb : Orb), orb.numLEDs ≤ i →
      (js.foldl (fun o j => Orb.pixelSet o (sp + j) (data.getD (j * 3) 0)
        (data.getD (j * 3 + 1) 0) (data.getD (j * 3 + 2) 0)) orb).numLEDs = orb.numLEDs ∧
      (js.foldl (fun o j => Orb.pixelSet o (sp + j) (data.getD (j * 3) 0)
        (data.getD (j * 3 + 1) 0) (data.getD (j * 3 + 2) 0)) orb).pixels.length =
        orb.pixels.length ∧
      (js.foldl (fun o j => Orb.pixelSet o (sp + j) (data.getD (j * 3) 0)
        (data.getD (j * 3 + 1) 0) (data.getD (j * 3 + 2) 0)) orb).pixels.getD i (0, 0, 0) =
        orb.pixels.getD i (0, 0, 0) := by
  intro js
  induction js with
  | nil => intro orb _; exact ⟨rfl, rfl, rfl⟩
  | cons j js ih =>
    intro orb hle
    rw [List.foldl_cons]
    have hs := Orb.pixelSet_preserve orb (sp + j) (data.getD (j * 3) 0)
      (data.getD (j * 3 + 1) 0) (data.getD (j * 3 + 2) 0) i hle
    have hih := ih (Orb.pixelSet orb (sp + j) (data.getD (j * 3) 0)
      (data.getD (j * 3 + 1) 0) (data.getD (j * 3 + 2) 0)) (by rw [hs.1]; exact hle)
    exact ⟨by rw [hih.1, hs.1], by rw [hih.2.1, hs.2.1], by rw [hih.2.2, hs.2.2]⟩

/-- Claim C9: a packet routed to a 50-pixel strip with byte offset 147
(start pixel 49) and a 9-byte payload (3 pixels) is clamped to exactly
one pixel write, at index 49, carrying the brightness-limited first
triplet; in general the write loop never touches a pixel index at or
beyond the strip's pixel count, and the clamped pixel count keeps
`startPixel + pixelCount` within the strip. -/
theorem DDPController.applyPixelData_clamped (orb : Orb) (p : DDPPacket)
    (hn : orb.numLEDs = 50) (hoff : p.dataOffset = 147) (hlen : p.dataLength = 9) :
    DDPController.applyPixelData orb p =
      Orb.pixelSet orb 49
        (((BrightnessLimiter.mk 50 255 102 4).limitBrightness p.data 1).getD 0 0)
        (((BrightnessLimiter.mk 50 255 102 4).limitBrightness p.data 1).getD 1 0)
        (((BrightnessLimiter.mk 50 255 102 4).limitBrightness p.data 1).getD 2 0) ∧
    (∀ (orb2 : Orb) (q : DDPPacket) (i : Nat), orb2.numLEDs ≤ i →
      (DDPController.applyPixelData orb2 q).numLEDs = orb2.numLEDs ∧
      (DDPController.applyPixelData orb2 q).pixels.length = orb2.pixels.length ∧
      (DDPController.applyPixelData orb2 q).pixels.getD i (0, 0, 0) =
        orb2.pixels.getD i (0, 0, 0)) ∧
    (∀ (orb2 : Orb) (q : DDPPacket),
      (q.dataOffset / 3) % 65536 < orb2.numLEDs →
      (q.dataOffset / 3) % 65536 +
        (if orb2.numLEDs < (q.dataOffset / 3) % 65536 + DDPProtocol.getPixelCount q then
          orb2.numLEDs - (q.dataOffset / 3) % 65536
        else DDPProtocol.getPixelCount q) ≤ orb2.numLEDs) := by
  refine ⟨?_, ?_, ?_⟩
  · rw [DDPController.applyPixelData, DDPProtocol.getPixelCount, DDPController.limiter,
      hoff, hlen, hn]
    norm_num
    rw [show List.range 1 = [0] from rfl]
    simp
  · intro orb2 q i hi
    rw [DDPController.applyPixelData]
    simp only []
    split
    · exact ⟨rfl, rfl, rfl⟩
    · exact DDPController.writeLoop_preserve _ _ i (List.range _) orb2 hi
  · intro orb2 q hlt
    split
    · omega
    · rename_i hcl
      omega

/-- A 50-LED strip, all dark. -/
def orb50 : Orb :=
  ⟨50, List.replicate 50 (0, 0, 0)⟩

/-- The routing-scenario packet: byte offset 147, 9 payload bytes. -/
def packet147 : DDPPacket :=
  ⟨0x41, 0, 1, 1, 147, 9, [10, 20, 30, 1, 1, 1, 2, 2, 2]⟩

/-- Witness for claim C9 at the concrete 50-pixel strip and packet. -/
theorem DDPController.applyPixelData_clamped_witness :
    (orb50.numLEDs = 50 ∧ packet147.dataOffset = 147 ∧ packet147.dataLength = 9) ∧
    DDPController.applyPixelData orb50 packet147 =
      Orb.pixelSet orb50 49
        (((BrightnessLimiter.mk 50 255 102 4).limitBrightness packet147.data 1).getD 0 0)
        (((BrightnessLimiter.mk 50 255 102 4).limitBrightness packet147.data 1).getD 1 0)
        (((BrightnessLimiter.mk 50 255 102 4).limitBrightness packet147.data 1).getD 2 0) :=
  ⟨⟨rfl, rfl, rfl⟩,
    (DDPController.applyPixelData_clamped orb50 packet147 rfl rfl rfl).1⟩
